import Mathlib

/-!
Verification of the figlet rendering core: a shallow embedding of the
smushing rule table (src/layout.rs), the rule engine (src/rules.rs) and
the font parser / render engine (src/font.rs), with theorems checking the
natural-language specification against it.

Rust strings are modelled as `List Char`; `usize`/`isize` as `Nat`/`Int`;
fallible paths (`Result`, panics from `unwrap`, index and arithmetic
overflow panics, `assert_eq!`) as `Option`/`ParseResult`, with every panic
collapsed to the failure value.
-/

/-- Axis of a smushing rule (src/layout.rs `LayoutType`). -/
inductive LayoutType where
  | Horizontal
  | Vertical
deriving DecidableEq

/-- Per-axis layout strategy (src/layout.rs `LayoutMode`). -/
inductive LayoutMode where
  | FullWidth
  | Fitting
  | ControlledSmush
  | UniversalSmush
deriving DecidableEq

/-- The 15 smushing rule variants (src/layout.rs `SmushingRule`). -/
inductive SmushingRule where
  | HorizontalEqualChar
  | HorizontalUnderscore
  | HorizontalHierarchy
  | HorizontalOppositePair
  | HorizontalBigX
  | HorizontalHardblank
  | HorizontalFitting
  | HorizontalSmushing
  | VerticalEqualChar
  | VerticalUnderscore
  | VerticalHierarchy
  | VerticalHorizontalLine
  | VerticalVerticalLine
  | VerticalFitting
  | VerticalSmushing
deriving DecidableEq

/-- Rust enum discriminant of each rule (the priority bit value). -/
def SmushingRule.val : SmushingRule → Nat
  | .HorizontalEqualChar => 1
  | .HorizontalUnderscore => 2
  | .HorizontalHierarchy => 4
  | .HorizontalOppositePair => 8
  | .HorizontalBigX => 16
  | .HorizontalHardblank => 32
  | .HorizontalFitting => 64
  | .HorizontalSmushing => 128
  | .VerticalEqualChar => 256
  | .VerticalUnderscore => 512
  | .VerticalHierarchy => 1024
  | .VerticalHorizontalLine => 2048
  | .VerticalVerticalLine => 4096
  | .VerticalFitting => 8192
  | .VerticalSmushing => 16384

/-- Axis of a rule: discriminants up to 255 are horizontal (src/layout.rs `get_type`). -/
def SmushingRule.get_type (r : SmushingRule) : LayoutType :=
  if r.val ≤ 255 then LayoutType.Horizontal else LayoutType.Vertical

/-- Mode classification of a rule, including the source's dead second test of
8192 (src/layout.rs `get_mode`). -/
def SmushingRule.get_mode (r : SmushingRule) : LayoutMode :=
  if r.val = 8192 ∨ r.val = 64 then LayoutMode.Fitting
  else if r.val = 128 ∨ r.val = 8192 then LayoutMode.UniversalSmush
  else LayoutMode.ControlledSmush

/-- Character set of the Underscore rule, the Rust string of brackets and bars. -/
def underscoreChars : List Char :=
  ['|', '/', '\\', '[', ']', '{', '}', '(', ')', '<', '>']

/-- Class string of the Hierarchy rule, spaces included; Rust `str::find`
locates the first occurrence, hence a space always maps to position 1. -/
def hierarchyClasses : List Char :=
  ['|', ' ', '/', '\\', ' ', '[', ']', ' ', '{', '}', ' ', '(', ')', ' ', '<', '>']

/-- Bracket string of the OppositePair rule, spaces included. -/
def oppositeBrackets : List Char :=
  ['[', ']', ' ', '{', '}', ' ', '(', ')']

/-- Pairwise combination function of each rule (src/layout.rs `SmushingRule::smush`). -/
def SmushingRule.smush (r : SmushingRule) (char1 char2 hardblank : Char) : Option Char :=
  match r with
  | .HorizontalEqualChar =>
      if char1 = char2 ∧ char1 ≠ hardblank then some char1 else none
  | .HorizontalUnderscore =>
      if char1 = '_' ∧ char2 ∈ underscoreChars then some char2
      else if char2 = '_' ∧ char1 ∈ underscoreChars then some char1
      else none
  | .HorizontalHierarchy =>
      match hierarchyClasses.indexOf? char1, hierarchyClasses.indexOf? char2 with
      | some pos1, some pos2 =>
          if pos1 ≠ pos2 ∧ ((pos1 : Int) - (pos2 : Int)).natAbs ≠ 1 then
            hierarchyClasses.get? (max pos1 pos2)
          else none
      | _, _ => none
  | .HorizontalOppositePair =>
      match oppositeBrackets.indexOf? char1, oppositeBrackets.indexOf? char2 with
      | some pos1, some pos2 =>
          if ((pos1 : Int) - (pos2 : Int)).natAbs = 1 then some '|' else none
      | _, _ => none
  | .HorizontalBigX =>
      if char1 = '/' ∧ char2 = '\\' then some '|'
      else if char1 = '\\' ∧ char2 = '/' then some 'Y'
      else if char1 = '>' ∧ char2 = '<' then some 'X'
      else none
  | .HorizontalHardblank =>
      if char1 = hardblank ∧ char2 = hardblank then some hardblank else none
  | .HorizontalFitting =>
      if char1 = ' ' ∧ char2 = ' ' then some ' ' else none
  | .HorizontalSmushing =>
      if char1 ≠ hardblank ∧ char2 ≠ hardblank then some char2 else none
  | .VerticalEqualChar =>
      if char1 = char2 ∧ char1 ≠ hardblank then some char1 else none
  | .VerticalUnderscore =>
      if char1 = '_' ∧ char2 ∈ underscoreChars then some char2
      else if char2 = '_' ∧ char1 ∈ underscoreChars then some char1
      else none
  | .VerticalHierarchy =>
      match hierarchyClasses.indexOf? char1, hierarchyClasses.indexOf? char2 with
      | some pos1, some pos2 =>
          if pos1 ≠ pos2 ∧ ((pos1 : Int) - (pos2 : Int)).natAbs ≠ 1 then
            hierarchyClasses.get? (max pos1 pos2)
          else none
      | _, _ => none
  | .VerticalHorizontalLine =>
      if (char1 = '-' ∧ char2 = '_') ∨ (char1 = '_' ∧ char2 = '-') then some '='
      else none
  | .VerticalVerticalLine =>
      if char1 = '|' ∧ char2 = '|' then some '|' else none
  | .VerticalFitting => none
  | .VerticalSmushing => none

/-- Derived rule configuration of a font (src/rules.rs `Rules`). -/
structure Rules where
  horizontal_layout : LayoutMode
  vertical_layout : LayoutMode
  horizontal_rules : List SmushingRule
  vertical_rules : List SmushingRule
deriving DecidableEq

/-- True when some horizontal rule applies to the pair (src/rules.rs `smushes_horizontal`). -/
def Rules.smushes_horizontal (R : Rules) (char1 char2 hardblank : Char) : Bool :=
  R.horizontal_rules.any (fun r => (r.smush char1 char2 hardblank).isSome)

/-- Column-merge function (src/rules.rs `Rules::smush_horizontal`). -/
def Rules.smush_horizontal (R : Rules) (char1 char2 hardblank : Char) : Option Char :=
  if char1 = ' ' then some char2
  else if char2 = ' ' then some char1
  else if R.horizontal_layout = LayoutMode.UniversalSmush then
    SmushingRule.HorizontalSmushing.smush char1 char2 hardblank
  else
    R.horizontal_rules.findSome? (fun r => r.smush char1 char2 hardblank)

/-- First non-none result of trying the rules in list order; spec-side
formulation of the rule-loop of `Rules::smush_horizontal` (spec section 4.5). -/
def firstMatch (rules : List SmushingRule) (char1 char2 hardblank : Char) : Option Char :=
  match rules with
  | [] => none
  | r :: rest =>
      match r.smush char1 char2 hardblank with
      | some c => some c
      | none => firstMatch rest char1 char2 hardblank

/-- Modelled from the spec, section 4.5 step 4: the column-merge contract the
spec states for `smush_horizontal`, to be compared with the source definition. -/
def smushHorizontalSpec (R : Rules) (char1 char2 hardblank : Char) : Option Char :=
  if char1 = ' ' then some char2
  else if char2 = ' ' then some char1
  else if R.horizontal_layout = LayoutMode.UniversalSmush then
    SmushingRule.HorizontalSmushing.smush char1 char2 hardblank
  else firstMatch R.horizontal_rules char1 char2 hardblank

/-- Mutable state of the layout-decoding loop in `Font::get_layout`. -/
structure DecodeSt where
  ly : Int
  horizontal_rules : List SmushingRule
  vertical_rules : List SmushingRule
  horizontal_layout : Option LayoutMode
  vertical_layout : Option LayoutMode
deriving DecidableEq

/-- One iteration of the decoding loop of `Font::get_layout` (src/font.rs lines 123-137). -/
def decodeStep (st : DecodeSt) (code : SmushingRule) : DecodeSt :=
  if (code.val : Int) ≤ st.ly then
    match code.get_type with
    | LayoutType.Horizontal =>
        { st with
          ly := st.ly - (code.val : Int)
          horizontal_rules := st.horizontal_rules ++ [code]
          horizontal_layout := some code.get_mode }
    | LayoutType.Vertical =>
        { st with
          ly := st.ly - (code.val : Int)
          vertical_rules := st.vertical_rules ++ [code]
          vertical_layout := some code.get_mode }
  else st

/-- The rules in the order the decoding loop visits them: declaration order of
the enum (strum `EnumIter`) reversed, i.e. highest discriminant first. -/
def ruleIterRev : List SmushingRule :=
  [.VerticalSmushing, .VerticalFitting, .VerticalVerticalLine, .VerticalHorizontalLine,
   .VerticalHierarchy, .VerticalUnderscore, .VerticalEqualChar,
   .HorizontalSmushing, .HorizontalFitting, .HorizontalHardblank, .HorizontalBigX,
   .HorizontalOppositePair, .HorizontalHierarchy, .HorizontalUnderscore, .HorizontalEqualChar]

/-- The greedy bit-decomposition loop of `Font::get_layout`. -/
def decodeCore (full_layout : Option Int) (old_layout : Int) : DecodeSt :=
  ruleIterRev.foldl decodeStep
    { ly := full_layout.getD old_layout
      horizontal_rules := []
      vertical_rules := []
      horizontal_layout := none
      vertical_layout := none }

/-- Vertical post-processing of `Font::get_layout` (src/font.rs lines 152-159)
followed by construction of the `Rules` value. -/
def finishVertical (vlOpt : Option LayoutMode) (hl : LayoutMode)
    (hrules vrules : List SmushingRule) : Rules :=
  match vlOpt with
  | none => ⟨hl, LayoutMode.FullWidth, hrules, vrules⟩
  | some vl =>
      if vl = LayoutMode.ControlledSmush then
        ⟨hl, vl, hrules, vrules.filter (fun r => r ≠ SmushingRule.VerticalSmushing)⟩
      else ⟨hl, vl, hrules, vrules⟩

/-- Layout decoder (src/font.rs `Font::get_layout`); `none` models the panic of
`horizontal_layout.unwrap()` when no horizontal rule matched and `old_layout`
is neither 0 nor -1. -/
def get_layout (full_layout : Option Int) (old_layout : Int) : Option Rules :=
  match (decodeCore full_layout old_layout).horizontal_layout with
  | none =>
      if old_layout = 0 then
        some (finishVertical (decodeCore full_layout old_layout).vertical_layout
          LayoutMode.Fitting (decodeCore full_layout old_layout).horizontal_rules
          ((decodeCore full_layout old_layout).vertical_rules ++
            [SmushingRule.HorizontalFitting]))
      else if old_layout = -1 then
        some (finishVertical (decodeCore full_layout old_layout).vertical_layout
          LayoutMode.FullWidth (decodeCore full_layout old_layout).horizontal_rules
          (decodeCore full_layout old_layout).vertical_rules)
      else none
  | some hl =>
      if hl = LayoutMode.ControlledSmush then
        some (finishVertical (decodeCore full_layout old_layout).vertical_layout hl
          ((decodeCore full_layout old_layout).horizontal_rules.filter
            (fun r => r ≠ SmushingRule.HorizontalSmushing))
          (decodeCore full_layout old_layout).vertical_rules)
      else
        some (finishVertical (decodeCore full_layout old_layout).vertical_layout hl
          (decodeCore full_layout old_layout).horizontal_rules
          (decodeCore full_layout old_layout).vertical_rules)

/-- Outcome of a fallible Rust call: a returned value, a returned
`ParseIntError`, or a panic (from `unwrap` on `None`, indexing, `assert_eq!`,
or arithmetic overflow). -/
inductive ParseResult (α : Type) where
  | ok : α → ParseResult α
  | intErr : ParseResult α
  | panic : ParseResult α
deriving DecidableEq

/-- ASCII whitespace, the class used by Rust `split_ascii_whitespace`. -/
def isAsciiWs (c : Char) : Bool :=
  c = ' ' || c = '\t' || c = '\n' || c = '\x0c' || c = '\r'

/-- Accumulator-based splitter on ASCII whitespace; tokens are nonempty. -/
def splitWsAux : List Char → List Char → List (List Char)
  | [], acc => if acc.isEmpty then [] else [acc.reverse]
  | c :: rest, acc =>
      if isAsciiWs c then
        if acc.isEmpty then splitWsAux rest []
        else acc.reverse :: splitWsAux rest []
      else splitWsAux rest (c :: acc)

/-- Rust `str::split_ascii_whitespace`, collected into a list of tokens. -/
def splitAsciiWhitespace (s : List Char) : List (List Char) :=
  splitWsAux s []

/-- Digit-run value of a token; `none` unless the token is one or more ASCII
digits. Mirrors the digit-parsing core of Rust integer `FromStr`. -/
def digitsVal (t : List Char) : Option Nat :=
  if t ≠ [] ∧ t.all (fun c => c.isDigit) then
    some (t.foldl (fun n c => n * 10 + (c.toNat - 48)) 0)
  else none

/-- Rust `str::parse::<usize>`: optional leading plus sign, then digits. -/
def parseUsize (s : List Char) : Option Nat :=
  match s with
  | '+' :: rest => digitsVal rest
  | _ => digitsVal s

/-- Rust `str::parse::<isize>`: optional sign, then digits. -/
def parseIsize (s : List Char) : Option Int :=
  match s with
  | '-' :: rest => (digitsVal rest).map (fun n => -(n : Int))
  | '+' :: rest => (digitsVal rest).map (fun n => (n : Int))
  | _ => (digitsVal s).map (fun n => (n : Int))

/-- Parsed header line of a font file (src/font.rs `FontOpts`). -/
structure FontOpts where
  hardblank : Char
  height : Nat
  baseline : Nat
  max_length : Nat
  old_layout : Int
  comment_lines : Nat
  print_direction : Nat
  full_layout : Option Int
  codetag_count : Option Nat
deriving DecidableEq

/-- Header parsing over the whitespace-split token list, mirroring the
`head.next()` sequence of `FontOpts::parse`: `unwrap` on a missing token is a
panic, a failed mandatory numeric parse is a returned `ParseIntError`, and the
trailing optional fields fall back to `none` on any failure. -/
def FontOpts.parseToks (toks : List (List Char)) : ParseResult FontOpts :=
  match toks.get? 0 with
  | none => ParseResult.panic
  | some signature =>
    match toks.get? 1 with
    | none => ParseResult.panic
    | some t1 =>
      match parseUsize t1 with
      | none => ParseResult.intErr
      | some height =>
        match toks.get? 2 with
        | none => ParseResult.panic
        | some t2 =>
          match parseUsize t2 with
          | none => ParseResult.intErr
          | some baseline =>
            match toks.get? 3 with
            | none => ParseResult.panic
            | some t3 =>
              match parseUsize t3 with
              | none => ParseResult.intErr
              | some max_length =>
                match toks.get? 4 with
                | none => ParseResult.panic
                | some t4 =>
                  match parseIsize t4 with
                  | none => ParseResult.intErr
                  | some old_layout =>
                    match toks.get? 5 with
                    | none => ParseResult.panic
                    | some t5 =>
                      match parseUsize t5 with
                      | none => ParseResult.intErr
                      | some comment_lines =>
                        match parseUsize ((toks.get? 6).getD ['0']) with
                        | none => ParseResult.intErr
                        | some print_direction =>
                          match signature.getLast? with
                          | none => ParseResult.panic
                          | some hardblank =>
                            ParseResult.ok
                              { hardblank := hardblank
                                height := height
                                baseline := baseline
                                max_length := max_length
                                old_layout := old_layout
                                comment_lines := comment_lines
                                print_direction := print_direction
                                full_layout := (toks.get? 7).bind parseIsize
                                codetag_count := (toks.get? 8).bind parseUsize }

/-- Header parser on the raw line (src/font.rs `FontOpts::parse`). -/
def FontOpts.parse (line : String) : ParseResult FontOpts :=
  FontOpts.parseToks (splitAsciiWhitespace line.toList)

/-- Strip of one trailing carriage return, as Rust `str::lines` does per line. -/
def chompCr (l : List Char) : List Char :=
  match l.getLast? with
  | some c => if c = '\r' then l.dropLast else l
  | none => l

/-- Accumulator-based line splitter mirroring Rust `str::lines`. -/
def splitLinesAux : List Char → List Char → List (List Char)
  | [], acc => if acc.isEmpty then [] else [chompCr acc.reverse]
  | c :: rest, acc =>
      if c = '\n' then chompCr acc.reverse :: splitLinesAux rest []
      else splitLinesAux rest (c :: acc)

/-- Rust `str::lines`, collected into a list. -/
def splitLines (s : List Char) : List (List Char) :=
  splitLinesAux s []

/-- Per-line end-mark stripping of `Font::parse_font` (src/font.rs lines 94-97):
`l.replace(last_char, "")` removes EVERY occurrence of the line's final
character; `none` models the index panic `&l[l.len() - 1..]` on an empty line. -/
def stripLine (l : List Char) : Option (List Char) :=
  match l.getLast? with
  | none => none
  | some c => some (l.filter (fun d => d ≠ c))

/-- Total companion of `stripLine`, used to state what the builder computes. -/
def stripSpec (l : List Char) : List Char :=
  match l.getLast? with
  | none => []
  | some c => l.filter (fun d => d ≠ c)

/-- `stripLine` over a list of lines, propagating the empty-line panic. -/
def mapStrip : List (List Char) → Option (List (List Char))
  | [] => some []
  | l :: ls =>
      match stripLine l with
      | none => none
      | some l' => (mapStrip ls).map (fun rest => l' :: rest)

/-- Fuel-based worker for `chunksOf`; the fuel starts at the list length and
stays an upper bound on it, so it is never exhausted. -/
def chunksOfAux : Nat → Nat → List α → List (List α)
  | _, _, [] => []
  | 0, _, _ :: _ => []
  | _ + 1, 0, _ :: _ => []
  | fuel + 1, n + 1, x :: xs =>
      (x :: xs).take (n + 1) :: chunksOfAux fuel (n + 1) ((x :: xs).drop (n + 1))

/-- Rust slice `chunks`: consecutive chunks of `n` elements, the last chunk
possibly shorter. Only called with `n ≥ 1`; `chunks(0)` panics in Rust and the
caller models that panic before reaching this function. -/
def chunksOf (n : Nat) (l : List α) : List (List α) :=
  chunksOfAux l.length n l

/-- The fixed code sequence glyph chunks are assigned to: 32..=125 then the
seven Latin-1 codes (src/font.rs line 86). -/
def charNums : List Nat :=
  List.range' 32 94 ++ [196, 214, 220, 228, 246, 252, 223]

/-- A loaded font (src/font.rs `Font`); the glyph `HashMap` is modelled as the
association list the source builds it from (its keys are distinct). -/
structure Font where
  name : String
  font_head : FontOpts
  meta_data : List Char
  chars : List (Nat × List (List Char))
  rules : Rules
deriving DecidableEq

/-- Font parser (src/font.rs `Font::parse_font`): header line, comment lines,
then glyph lines stripped per `stripLine`, chunked by `height` and zipped with
`charNums`. Panics modelled: missing header line, empty glyph line,
`chunks(0)` on a zero height, and the `get_layout` unwrap. -/
def parse_font (name : String) (data : String) : ParseResult Font :=
  match splitLines data.toList with
  | [] => ParseResult.panic
  | headLine :: rest =>
    match FontOpts.parse (String.mk headLine) with
    | ParseResult.panic => ParseResult.panic
    | ParseResult.intErr => ParseResult.intErr
    | ParseResult.ok font_head =>
      match mapStrip (rest.drop font_head.comment_lines) with
      | none => ParseResult.panic
      | some line_vec =>
        if font_head.height = 0 then ParseResult.panic
        else
          match get_layout font_head.full_layout font_head.old_layout with
          | none => ParseResult.panic
          | some rules =>
            ParseResult.ok
              { name := name
                font_head := font_head
                meta_data := List.intercalate ['\n'] (rest.take font_head.comment_lines)
                chars := charNums.zip (chunksOf font_head.height line_vec)
                rules := rules }

/-- Candidate overlay of one accumulator row against one glyph row
(src/font.rs `Font::calc_overlay`, loop body lines 209-231). -/
def rowOverlay (R : Rules) (hb : Char) (cs fs : List Char) : Nat :=
  let emptys1 := (cs.reverse.takeWhile (fun c => c = ' ')).length
  let emptys2 := (fs.takeWhile (fun c => c = ' ')).length
  let overlay := emptys1 + emptys2
  if emptys1 < cs.length ∧ emptys2 < fs.length ∧
      ((R.horizontal_layout = LayoutMode.UniversalSmush ∧
          (SmushingRule.HorizontalSmushing.smush (cs.getD (cs.length - 1 - emptys1) ' ')
              (fs.getD emptys2 ' ') hb).isSome) ∨
        R.smushes_horizontal (cs.getD (cs.length - 1 - emptys1) ' ') (fs.getD emptys2 ' ') hb
          = true)
  then overlay + 1 else overlay

/-- Overlay computation (src/font.rs `Font::calc_overlay`): `none` models the
`assert_eq!` failure on differing row counts and the `chars[0]` index panic on
an empty accumulator; otherwise the minimum row candidate, seeded with (and so
capped by) the width of the accumulator's first row. -/
def calc_overlay (R : Rules) (hb : Char) (chars figchar : List (List Char)) : Option Nat :=
  if chars.length = figchar.length then
    if R.horizontal_layout = LayoutMode.FullWidth then some 0
    else
      match chars.head? with
      | none => none
      | some row0 =>
          some ((chars.zip figchar).foldl
            (fun m p => min m (rowOverlay R hb p.1 p.2)) row0.length)
  else none

/-- Pairwise smushing of the overlapping columns; `none` models the `unwrap`
panic when `smush_horizontal` matches no rule. -/
def smushZip (R : Rules) (hb : Char) : List Char → List Char → Option (List Char)
  | [], _ => some []
  | _ :: _, [] => some []
  | a :: xs, b :: ys =>
      match R.smush_horizontal a b hb with
      | none => none
      | some c =>
          match smushZip R hb xs ys with
          | none => none
          | some rest => some (c :: rest)

/-- Merge of one accumulator row with one glyph row at a given overlay
(src/font.rs `Font::add_char` loop, lines 184-198): the last `overlay` columns
of the row are smushed with the first `overlay` glyph columns in place, then
the remaining glyph columns are appended. `none` models the index/underflow
panics when the overlay exceeds either row and the smush `unwrap` panic. -/
def rowMerge (R : Rules) (hb : Char) (overlay : Nat) (cs1 cs2 : List Char) :
    Option (List Char) :=
  if overlay ≤ cs1.length ∧ overlay ≤ cs2.length then
    match smushZip R hb (cs1.drop (cs1.length - overlay)) (cs2.take overlay) with
    | none => none
    | some merged => some (cs1.take (cs1.length - overlay) ++ merged ++ cs2.drop overlay)
  else none

/-- Row-wise merging of `Font::add_char`: accumulator rows beyond the glyph's
row count stay untouched (the Rust `zip` stops), extra glyph rows are ignored. -/
def mergeRows (R : Rules) (hb : Char) (overlay : Nat) :
    List (List Char) → List (List Char) → Option (List (List Char))
  | cs, [] => some cs
  | [], _ :: _ => some []
  | c :: cs, f :: fs =>
      match rowMerge R hb overlay c f with
      | none => none
      | some r =>
          match mergeRows R hb overlay cs fs with
          | none => none
          | some rs => some (r :: rs)

/-- Glyph composition step (src/font.rs `Font::add_char`). -/
def add_char (R : Rules) (hb : Char) (chars figchar : List (List Char)) :
    Option (List (List Char)) :=
  match calc_overlay R hb chars figchar with
  | none => none
  | some overlay => mergeRows R hb overlay chars figchar

/-- The `c as u16` cast used for glyph lookup in `Font::convert`. -/
def charCode (c : Char) : Nat :=
  c.toNat % 65536

/-- The render fold of `Font::convert` (src/font.rs lines 171-174): look every
message character up and compose it onto the accumulator; `none` models the
glyph-lookup `unwrap` panic and any panic inside `add_char`. -/
def convertLoop (f : Font) : List (List Char) → List Char → Option (List (List Char))
  | acc, [] => some acc
  | acc, c :: cs =>
      match f.chars.lookup (charCode c) with
      | none => none
      | some figchar =>
          match add_char f.rules f.font_head.hardblank acc figchar with
          | none => none
          | some acc2 => convertLoop f acc2 cs

/-- Renderer (src/font.rs `Font::convert`), up to the final row-joining into a
single string: the banner as a list of `height` character rows. -/
def convert (f : Font) (message : List Char) : Option (List (List Char)) :=
  convertLoop f (List.replicate f.font_head.height []) message

/-- Row `i` of the glyph of message character `c`, defaulting to empty. -/
def glyphRow (f : Font) (c : Char) (i : Nat) : List Char :=
  (((f.chars.lookup (charCode c)).getD []).getD i [])

/-- A one-row font in Fitting horizontal mode (the rules `get_layout none 0`
produces), with a blank glyph for letter a and an x glyph for letter b. -/
def F0 : Font :=
  ⟨"tiny-fitting", ⟨'$', 1, 1, 4, 0, 0, 0, none, none⟩, [],
    [(97, [[' ']]), (98, [['x']])],
    ⟨LayoutMode.Fitting, LayoutMode.FullWidth, [], [SmushingRule.HorizontalFitting]⟩⟩

/-- A one-row font in FullWidth horizontal mode with two-column and one-column
glyphs for the letters a and b. -/
def F1 : Font :=
  ⟨"tiny-fullwidth", ⟨'$', 1, 1, 4, -1, 0, 0, none, none⟩, [],
    [(97, [['a', 'b']]), (98, [['c']])],
    ⟨LayoutMode.FullWidth, LayoutMode.FullWidth, [], []⟩⟩

/-- Symmetry of a rule's combine function under swapping its two characters. -/
def IsSymmetricRule (r : SmushingRule) : Prop :=
  ∀ a b hb : Char, r.smush a b hb = r.smush b a hb

/-- Formalization of claim C5 as stated: EqualChar, Hardblank and VerticalLine
symmetric; BigX, Underscore, Hierarchy and OppositePair asymmetric. -/
def claim5Statement : Prop :=
  (IsSymmetricRule SmushingRule.HorizontalEqualChar ∧
   IsSymmetricRule SmushingRule.VerticalEqualChar ∧
   IsSymmetricRule SmushingRule.HorizontalHardblank ∧
   IsSymmetricRule SmushingRule.VerticalVerticalLine) ∧
  ((¬ IsSymmetricRule SmushingRule.HorizontalBigX) ∧
   (¬ IsSymmetricRule SmushingRule.HorizontalUnderscore) ∧
   (¬ IsSymmetricRule SmushingRule.VerticalUnderscore) ∧
   (¬ IsSymmetricRule SmushingRule.HorizontalHierarchy) ∧
   (¬ IsSymmetricRule SmushingRule.VerticalHierarchy) ∧
   (¬ IsSymmetricRule SmushingRule.HorizontalOppositePair))

/-- Invariant of the decoding loop: a layout mode is unset exactly while its
rule list is empty, and each list only holds rules of its own axis. -/
def DecodeInv (st : DecodeSt) : Prop :=
  (st.horizontal_layout = none ↔ st.horizontal_rules = []) ∧
  (st.vertical_layout = none ↔ st.vertical_rules = []) ∧
  (∀ s ∈ st.horizontal_rules, s.get_type = LayoutType.Horizontal) ∧
  (∀ s ∈ st.vertical_rules, s.get_type = LayoutType.Vertical)

lemma foldl_preserve {σ α : Type} (P : σ → Prop) (step : σ → α → σ)
    (hstep : ∀ s a, P s → P (step s a)) :
    ∀ (l : List α) (s : σ), P s → P (l.foldl step s) := by
  intro l
  induction l with
  | nil => intro s hs; exact hs
  | cons a rest ih => intro s hs; exact ih _ (hstep s a hs)

lemma decodeStep_cases (st : DecodeSt) (code : SmushingRule) :
    decodeStep st code = st ∨
    (code.get_type = LayoutType.Horizontal ∧
      (decodeStep st code).horizontal_rules = st.horizontal_rules ++ [code] ∧
      (decodeStep st code).vertical_rules = st.vertical_rules ∧
      (decodeStep st code).horizontal_layout = some code.get_mode ∧
      (decodeStep st code).vertical_layout = st.vertical_layout) ∨
    (code.get_type = LayoutType.Vertical ∧
      (decodeStep st code).horizontal_rules = st.horizontal_rules ∧
      (decodeStep st code).vertical_rules = st.vertical_rules ++ [code] ∧
      (decodeStep st code).horizontal_layout = st.horizontal_layout ∧
      (decodeStep st code).vertical_layout = some code.get_mode) := by
  unfold decodeStep
  split
  · cases hty : code.get_type with
    | Horizontal => right; left; simp [hty]
    | Vertical => right; right; simp [hty]
  · left; rfl

lemma decodeStep_inv (st : DecodeSt) (code : SmushingRule) (h : DecodeInv st) :
    DecodeInv (decodeStep st code) := by
  obtain ⟨h1, h2, h3, h4⟩ := h
  rcases decodeStep_cases st code with heq | ⟨hty, e1, e2, e3, e4⟩ | ⟨hty, e1, e2, e3, e4⟩
  · rw [heq]; exact ⟨h1, h2, h3, h4⟩
  · refine ⟨by rw [e1, e3]; simp, by rw [e2, e4]; exact h2, ?_, by rw [e2]; exact h4⟩
    intro s hs
    rw [e1] at hs
    rcases List.mem_append.mp hs with hs | hs
    · exact h3 s hs
    · rw [List.mem_singleton.mp hs]; exact hty
  · refine ⟨by rw [e1, e3]; exact h1, by rw [e2, e4]; simp, by rw [e1]; exact h3, ?_⟩
    intro s hs
    rw [e2] at hs
    rcases List.mem_append.mp hs with hs | hs
    · exact h4 s hs
    · rw [List.mem_singleton.mp hs]; exact hty

lemma decodeCore_inv (fl : Option Int) (ol : Int) : DecodeInv (decodeCore fl ol) := by
  refine foldl_preserve DecodeInv decodeStep decodeStep_inv ruleIterRev _ ?_
  exact ⟨by simp, by simp, fun s hs => absurd hs (List.not_mem_nil s),
    fun s hs => absurd hs (List.not_mem_nil s)⟩

lemma decode_nodup :
    ∀ (l : List SmushingRule) (st : DecodeSt), l.Nodup →
      (∀ s ∈ l, s ∉ st.horizontal_rules ∧ s ∉ st.vertical_rules) →
      (st.horizontal_rules ++ st.vertical_rules).Nodup →
      ((l.foldl decodeStep st).horizontal_rules ++
        (l.foldl decodeStep st).vertical_rules).Nodup := by
  intro l
  induction l with
  | nil => intro st _ _ hnd; exact hnd
  | cons code rest ih =>
      intro st hnd hout hnd0
      have hcode := hout code (by simp)
      have hrest : ∀ s ∈ rest, s ≠ code := by
        intro s hs
        have := (List.nodup_cons.mp hnd).1
        intro hc; subst hc; exact this hs
      simp only [List.foldl_cons]
      rcases decodeStep_cases st code with heq | ⟨_, e1, e2, _, _⟩ | ⟨_, e1, e2, _, _⟩
      · rw [heq]
        exact ih st (List.nodup_cons.mp hnd).2 (fun s hs => hout s (by simp [hs])) hnd0
      · refine ih _ (List.nodup_cons.mp hnd).2 ?_ ?_
        · intro s hs
          rw [e1, e2]
          refine ⟨?_, (hout s (by simp [hs])).2⟩
          rw [List.mem_append, not_or]
          exact ⟨(hout s (by simp [hs])).1, by simp [hrest s hs]⟩
        · rw [e1, e2]
          have h1 : (st.horizontal_rules ++ [code]).Nodup := by
            rw [List.nodup_append]
            exact ⟨(List.nodup_append.mp hnd0).1, by simp,
              by intro s hs hc; rw [List.mem_singleton.mp hc] at hs; exact hcode.1 hs⟩
          rw [List.nodup_append]
          refine ⟨h1, (List.nodup_append.mp hnd0).2.1, ?_⟩
          intro s hs hv
          rcases List.mem_append.mp hs with hs | hs
          · exact (List.nodup_append.mp hnd0).2.2 hs hv
          · rw [List.mem_singleton.mp hs] at hv; exact hcode.2 hv
      · refine ih _ (List.nodup_cons.mp hnd).2 ?_ ?_
        · intro s hs
          rw [e1, e2]
          refine ⟨(hout s (by simp [hs])).1, ?_⟩
          rw [List.mem_append, not_or]
          exact ⟨(hout s (by simp [hs])).2, by simp [hrest s hs]⟩
        · rw [e1, e2, ← List.append_assoc, List.nodup_append]
          refine ⟨hnd0, by simp, ?_⟩
          intro s hs hc
          rw [List.mem_singleton.mp hc] at hs
          rcases List.mem_append.mp hs with hs | hs
          · exact hcode.1 hs
          · exact hcode.2 hs

lemma decodeCore_nodup (fl : Option Int) (ol : Int) :
    ((decodeCore fl ol).horizontal_rules ++ (decodeCore fl ol).vertical_rules).Nodup := by
  refine decode_nodup ruleIterRev _ (by decide) ?_ (by simp)
  intro s _
  exact ⟨fun h => absurd h (by simp), fun h => absurd h (by simp)⟩

lemma finishVertical_props (vlOpt : Option LayoutMode) (hl : LayoutMode)
    (hrules vrules : List SmushingRule) :
    (finishVertical vlOpt hl hrules vrules).horizontal_layout = hl ∧
    (finishVertical vlOpt hl hrules vrules).horizontal_rules = hrules ∧
    (finishVertical vlOpt hl hrules vrules).vertical_rules.Sublist vrules := by
  unfold finishVertical
  cases vlOpt with
  | none => exact ⟨rfl, rfl, List.Sublist.refl _⟩
  | some vl =>
      dsimp only
      by_cases hvl : vl = LayoutMode.ControlledSmush
      · rw [if_pos hvl]
        exact ⟨rfl, rfl, List.filter_sublist _⟩
      · rw [if_neg hvl]
        exact ⟨rfl, rfl, List.Sublist.refl _⟩

lemma finishVertical_vl_none (hl : LayoutMode) (hrules vrules : List SmushingRule) :
    (finishVertical none hl hrules vrules).vertical_layout = LayoutMode.FullWidth := rfl

lemma finishVertical_mem_vrules (vlOpt : Option LayoutMode) (hl : LayoutMode)
    (hrules vrules : List SmushingRule) (s : SmushingRule) (hs : s ∈ vrules)
    (hne : s ≠ SmushingRule.VerticalSmushing) :
    s ∈ (finishVertical vlOpt hl hrules vrules).vertical_rules := by
  unfold finishVertical
  cases vlOpt with
  | none => exact hs
  | some vl =>
      dsimp only
      by_cases hvl : vl = LayoutMode.ControlledSmush
      · rw [if_pos hvl]
        simp only [List.mem_filter]
        exact ⟨hs, by simp [hne]⟩
      · rw [if_neg hvl]
        exact hs

lemma get_layout_shape (fl : Option Int) (ol : Int) (r : Rules)
    (h : get_layout fl ol = some r) :
    ∃ hl hrules vrules,
      r = finishVertical (decodeCore fl ol).vertical_layout hl hrules vrules := by
  unfold get_layout at h
  split at h
  · split_ifs at h with h0 h1
    · exact ⟨_, _, _, (Option.some.inj h).symm⟩
    · exact ⟨_, _, _, (Option.some.inj h).symm⟩
  · split_ifs at h with h0
    · exact ⟨_, _, _, (Option.some.inj h).symm⟩
    · exact ⟨_, _, _, (Option.some.inj h).symm⟩

lemma finishVertical_nodup_axis (P : SmushingRule → Prop) (vlOpt : Option LayoutMode)
    (hl : LayoutMode) (hrules vrules : List SmushingRule)
    (hnd : (hrules ++ vrules).Nodup)
    (hh : ∀ s ∈ hrules, s.get_type = LayoutType.Horizontal)
    (hv : ∀ s ∈ vrules, P s) :
    ((finishVertical vlOpt hl hrules vrules).horizontal_rules ++
      (finishVertical vlOpt hl hrules vrules).vertical_rules).Nodup ∧
    (∀ s ∈ (finishVertical vlOpt hl hrules vrules).horizontal_rules,
      s.get_type = LayoutType.Horizontal) ∧
    (∀ s ∈ (finishVertical vlOpt hl hrules vrules).vertical_rules, P s) := by
  obtain ⟨_, hfr, hfs⟩ := finishVertical_props vlOpt hl hrules vrules
  refine ⟨?_, ?_, ?_⟩
  · have hsub : ((finishVertical vlOpt hl hrules vrules).horizontal_rules ++
        (finishVertical vlOpt hl hrules vrules).vertical_rules).Sublist
        (hrules ++ vrules) := by
      rw [hfr]
      exact List.Sublist.append (List.Sublist.refl _) hfs
    exact List.Nodup.sublist hsub hnd
  · intro s hs
    rw [hfr] at hs
    exact hh s hs
  · intro s hs
    exact hv s (hfs.subset hs)

/-- All five mandatory numeric header fields are present and numeric. -/
def mandNumeric (toks : List (List Char)) : Bool :=
  (parseUsize (toks.getD 1 [])).isSome && (parseUsize (toks.getD 2 [])).isSome &&
  (parseUsize (toks.getD 3 [])).isSome && (parseIsize (toks.getD 4 [])).isSome &&
  (parseUsize (toks.getD 5 [])).isSome

/-- Every mandatory numeric header field that is present is numeric. -/
def presentMandNumeric (toks : List (List Char)) : Bool :=
  (decide (toks.length ≤ 1) || (parseUsize (toks.getD 1 [])).isSome) &&
  (decide (toks.length ≤ 2) || (parseUsize (toks.getD 2 [])).isSome) &&
  (decide (toks.length ≤ 3) || (parseUsize (toks.getD 3 [])).isSome) &&
  (decide (toks.length ≤ 4) || (parseIsize (toks.getD 4 [])).isSome) &&
  (decide (toks.length ≤ 5) || (parseUsize (toks.getD 5 [])).isSome)

lemma splitWsAux_ne_nil : ∀ (s acc t : List Char), t ∈ splitWsAux s acc → t ≠ [] := by
  intro s
  induction s with
  | nil =>
      intro acc t ht
      simp only [splitWsAux] at ht
      split at ht
      · cases ht
      · rename_i hacc
        rw [List.mem_singleton.mp ht]
        simp only [List.isEmpty_eq_true] at hacc
        intro hc
        exact hacc (by simpa using congrArg List.reverse hc)
  | cons c rest ih =>
      intro acc t ht
      simp only [splitWsAux] at ht
      split at ht
      · split at ht
        · exact ih [] t ht
        · rename_i hacc
          rcases List.mem_cons.mp ht with ht | ht
          · rw [ht]
            simp only [List.isEmpty_eq_true] at hacc
            intro hc
            exact hacc (by simpa using congrArg List.reverse hc)
          · exact ih [] t ht
      · exact ih (c :: acc) t ht

lemma splitAsciiWhitespace_ne_nil (s : List Char) (t : List Char)
    (ht : t ∈ splitAsciiWhitespace s) : t ≠ [] :=
  splitWsAux_ne_nil s [] t ht

lemma parseToks_cases (toks : List (List Char)) (hne : ∀ t ∈ toks, t ≠ []) :
    (toks.length ≤ 5 → presentMandNumeric toks = true →
      FontOpts.parseToks toks = ParseResult.panic) ∧
    (6 ≤ toks.length → mandNumeric toks = false →
      FontOpts.parseToks toks = ParseResult.intErr) ∧
    (6 ≤ toks.length → mandNumeric toks = true →
      (parseUsize ((toks.get? 6).getD ['0'])).isSome = true →
      ∃ fo, FontOpts.parseToks toks = ParseResult.ok fo ∧
        fo.full_layout = (toks.get? 7).bind parseIsize ∧
        fo.codetag_count = (toks.get? 8).bind parseUsize) := by
  rcases toks with _ | ⟨t0, _ | ⟨t1, _ | ⟨t2, _ | ⟨t3, _ | ⟨t4, _ | ⟨t5, rest⟩⟩⟩⟩⟩⟩
  · exact ⟨fun _ _ => rfl, by intro h; simp at h, by intro h; simp at h⟩
  · exact ⟨fun _ _ => rfl, by intro h; simp at h, by intro h; simp at h⟩
  · refine ⟨?_, by intro h; simp at h, by intro h; simp at h⟩
    intro _ hpres
    simp [presentMandNumeric] at hpres
    obtain ⟨n1, e1⟩ := Option.isSome_iff_exists.mp hpres
    simp [FontOpts.parseToks, e1]
  · refine ⟨?_, by intro h; simp at h, by intro h; simp at h⟩
    intro _ hpres
    simp [presentMandNumeric] at hpres
    obtain ⟨⟨n1, e1⟩, n2, e2⟩ :=
      And.intro (Option.isSome_iff_exists.mp hpres.1) (Option.isSome_iff_exists.mp hpres.2)
    simp [FontOpts.parseToks, e1, e2]
  · refine ⟨?_, by intro h; simp at h, by intro h; simp at h⟩
    intro _ hpres
    simp [presentMandNumeric] at hpres
    obtain ⟨⟨hp1, hp2⟩, hp3⟩ := hpres
    obtain ⟨n1, e1⟩ := Option.isSome_iff_exists.mp hp1
    obtain ⟨n2, e2⟩ := Option.isSome_iff_exists.mp hp2
    obtain ⟨n3, e3⟩ := Option.isSome_iff_exists.mp hp3
    simp [FontOpts.parseToks, e1, e2, e3]
  · refine ⟨?_, by intro h; simp at h, by intro h; simp at h⟩
    intro _ hpres
    simp [presentMandNumeric] at hpres
    obtain ⟨⟨⟨hp1, hp2⟩, hp3⟩, hp4⟩ := hpres
    obtain ⟨n1, e1⟩ := Option.isSome_iff_exists.mp hp1
    obtain ⟨n2, e2⟩ := Option.isSome_iff_exists.mp hp2
    obtain ⟨n3, e3⟩ := Option.isSome_iff_exists.mp hp3
    obtain ⟨n4, e4⟩ := Option.isSome_iff_exists.mp hp4
    simp [FontOpts.parseToks, e1, e2, e3, e4]
  · refine ⟨?_, ?_, ?_⟩
    · intro h _
      exfalso
      simp only [List.length_cons] at h
      omega
    · intro _ hmand
      cases e1 : parseUsize t1 with
      | none => simp [FontOpts.parseToks, e1]
      | some n1 =>
        cases e2 : parseUsize t2 with
        | none => simp [FontOpts.parseToks, e1, e2]
        | some n2 =>
          cases e3 : parseUsize t3 with
          | none => simp [FontOpts.parseToks, e1, e2, e3]
          | some n3 =>
            cases e4 : parseIsize t4 with
            | none => simp [FontOpts.parseToks, e1, e2, e3, e4]
            | some n4 =>
              cases e5 : parseUsize t5 with
              | none => simp [FontOpts.parseToks, e1, e2, e3, e4, e5]
              | some n5 =>
                exfalso
                simp [mandNumeric, e1, e2, e3, e4, e5] at hmand
    · intro _ hmand hpd
      simp [mandNumeric] at hmand
      obtain ⟨⟨⟨⟨hm1, hm2⟩, hm3⟩, hm4⟩, hm5⟩ := hmand
      obtain ⟨n1, e1⟩ := Option.isSome_iff_exists.mp hm1
      obtain ⟨n2, e2⟩ := Option.isSome_iff_exists.mp hm2
      obtain ⟨n3, e3⟩ := Option.isSome_iff_exists.mp hm3
      obtain ⟨n4, e4⟩ := Option.isSome_iff_exists.mp hm4
      obtain ⟨n5, e5⟩ := Option.isSome_iff_exists.mp hm5
      obtain ⟨n6, e6⟩ := Option.isSome_iff_exists.mp hpd
      have ht0 : t0 ≠ [] := hne t0 (by simp)
      cases e0 : t0.getLast? with
      | none =>
          exact absurd (List.getLast?_eq_none_iff.mp e0) ht0
      | some hb0 =>
          simp only [List.get?_cons_succ] at e6
          have hok : FontOpts.parseToks (t0 :: t1 :: t2 :: t3 :: t4 :: t5 :: rest) =
              ParseResult.ok
                { hardblank := hb0, height := n1, baseline := n2, max_length := n3,
                  old_layout := n4, comment_lines := n5, print_direction := n6,
                  full_layout :=
                    ((t0 :: t1 :: t2 :: t3 :: t4 :: t5 :: rest).get? 7).bind parseIsize,
                  codetag_count :=
                    ((t0 :: t1 :: t2 :: t3 :: t4 :: t5 :: rest).get? 8).bind parseUsize } := by
            simp only [FontOpts.parseToks, List.get?_cons_zero, List.get?_cons_succ,
              e1, e2, e3, e4, e5, e6, e0]
          exact ⟨_, hok, rfl, rfl⟩

lemma findSome?_eq_firstMatch (c1 c2 hb : Char) (l : List SmushingRule) :
    l.findSome? (fun r => r.smush c1 c2 hb) = firstMatch l c1 c2 hb := by
  induction l with
  | nil => rfl
  | cons r rest ih =>
      simp only [List.findSome?, firstMatch]
      cases r.smush c1 c2 hb <;> simp [ih]

lemma findSome?_none_of_all {α β : Type} (f : α → Option β) (l : List α)
    (h : ∀ a ∈ l, f a = none) : l.findSome? f = none := by
  induction l with
  | nil => rfl
  | cons a rest ih =>
      simp only [List.findSome?]
      rw [h a (by simp)]
      exact ih (fun x hx => h x (by simp [hx]))

lemma isSymm_HEqualChar : IsSymmetricRule SmushingRule.HorizontalEqualChar := by
  intro a b hb
  simp only [SmushingRule.smush]
  by_cases h : a = b
  · subst h; rfl
  · rw [if_neg (fun hc => h hc.1), if_neg (fun hc => h hc.1.symm)]

lemma isSymm_VEqualChar : IsSymmetricRule SmushingRule.VerticalEqualChar := by
  intro a b hb
  simp only [SmushingRule.smush]
  by_cases h : a = b
  · subst h; rfl
  · rw [if_neg (fun hc => h hc.1), if_neg (fun hc => h hc.1.symm)]

lemma isSymm_HHardblank : IsSymmetricRule SmushingRule.HorizontalHardblank := by
  intro a b hb
  simp only [SmushingRule.smush]
  by_cases h1 : a = hb
  · by_cases h2 : b = hb
    · subst h1; subst h2; rfl
    · rw [if_neg (fun hc => h2 hc.2), if_neg (fun hc => h2 hc.1)]
  · rw [if_neg (fun hc => h1 hc.1), if_neg (fun hc => h1 hc.2)]

lemma isSymm_VVerticalLine : IsSymmetricRule SmushingRule.VerticalVerticalLine := by
  intro a b hb
  simp only [SmushingRule.smush]
  by_cases h1 : a = '|'
  · by_cases h2 : b = '|'
    · subst h1; subst h2; rfl
    · rw [if_neg (fun hc => h2 hc.2), if_neg (fun hc => h2 hc.1)]
  · rw [if_neg (fun hc => h1 hc.1), if_neg (fun hc => h1 hc.2)]

lemma underscore_body_symm (a b : Char) :
    (if a = '_' ∧ b ∈ underscoreChars then some b
     else if b = '_' ∧ a ∈ underscoreChars then some a
     else none) =
    (if b = '_' ∧ a ∈ underscoreChars then some a
     else if a = '_' ∧ b ∈ underscoreChars then some b
     else none) := by
  by_cases h1 : a = '_' ∧ b ∈ underscoreChars
  · by_cases h2 : b = '_' ∧ a ∈ underscoreChars
    · exfalso
      have hu : ('_' : Char) ∈ underscoreChars := h2.1 ▸ h1.2
      exact absurd hu (by decide)
    · rw [if_pos h1, if_neg h2, if_pos h1]
  · rw [if_neg h1]
    by_cases h2 : b = '_' ∧ a ∈ underscoreChars
    · rw [if_pos h2, if_pos h2]
    · rw [if_neg h2, if_neg h2, if_neg h1]

lemma isSymm_HUnderscore : IsSymmetricRule SmushingRule.HorizontalUnderscore := by
  intro a b hb
  simpa only [SmushingRule.smush] using underscore_body_symm a b

lemma isSymm_VUnderscore : IsSymmetricRule SmushingRule.VerticalUnderscore := by
  intro a b hb
  simpa only [SmushingRule.smush] using underscore_body_symm a b

lemma hierarchy_body_symm (a b : Char) :
    (match hierarchyClasses.indexOf? a, hierarchyClasses.indexOf? b with
     | some pos1, some pos2 =>
         if pos1 ≠ pos2 ∧ ((pos1 : Int) - (pos2 : Int)).natAbs ≠ 1 then
           hierarchyClasses.get? (max pos1 pos2)
         else none
     | _, _ => (none : Option Char)) =
    (match hierarchyClasses.indexOf? b, hierarchyClasses.indexOf? a with
     | some pos1, some pos2 =>
         if pos1 ≠ pos2 ∧ ((pos1 : Int) - (pos2 : Int)).natAbs ≠ 1 then
           hierarchyClasses.get? (max pos1 pos2)
         else none
     | _, _ => (none : Option Char)) := by
  cases ha : hierarchyClasses.indexOf? a <;> cases hb2 : hierarchyClasses.indexOf? b <;>
    simp only []
  rename_i p1 p2
  have hcond : (p1 ≠ p2 ∧ ((p1 : Int) - (p2 : Int)).natAbs ≠ 1) ↔
      (p2 ≠ p1 ∧ ((p2 : Int) - (p1 : Int)).natAbs ≠ 1) := by
    constructor <;> rintro ⟨u, v⟩ <;> exact ⟨Ne.symm u, by omega⟩
  rw [if_congr hcond rfl rfl, Nat.max_comm]

lemma isSymm_HHierarchy : IsSymmetricRule SmushingRule.HorizontalHierarchy := by
  intro a b hb
  simpa only [SmushingRule.smush] using hierarchy_body_symm a b

lemma isSymm_VHierarchy : IsSymmetricRule SmushingRule.VerticalHierarchy := by
  intro a b hb
  simpa only [SmushingRule.smush] using hierarchy_body_symm a b

lemma isSymm_HOppositePair : IsSymmetricRule SmushingRule.HorizontalOppositePair := by
  intro a b hb
  simp only [SmushingRule.smush]
  cases ha : oppositeBrackets.indexOf? a <;> cases hb2 : oppositeBrackets.indexOf? b <;>
    simp only []
  rename_i p1 p2
  have hcond : (((p1 : Int) - (p2 : Int)).natAbs = 1) ↔ (((p2 : Int) - (p1 : Int)).natAbs = 1) := by
    omega
  rw [if_congr hcond rfl rfl]

lemma not_isSymm_HBigX : ¬ IsSymmetricRule SmushingRule.HorizontalBigX := by
  intro h
  have hc := h '/' '\\' '$'
  revert hc
  decide

/-- Claim C5 (counterexample): the claim as stated is false, because the
Underscore rule's combine function IS symmetric — its two branches can never
disagree, as an underscore is not in its bracket character set — contradicting
the claimed existence of an asymmetric pair for Underscore. (Hierarchy and
OppositePair are likewise symmetric; only BigX is genuinely asymmetric.) -/
theorem c5_counterexample : ¬ claim5Statement :=
  fun h => h.2.2.1 isSymm_HUnderscore
/-- Claim C5 (amended): EqualChar, Hardblank, VerticalLine, Underscore,
Hierarchy, and OppositePair all have combine functions symmetric under
swapping their two character arguments; of the rules the claim lists as
asymmetric, only BigX actually is. -/
theorem c5_rule_symmetry :
    IsSymmetricRule SmushingRule.HorizontalEqualChar ∧
    IsSymmetricRule SmushingRule.VerticalEqualChar ∧
    IsSymmetricRule SmushingRule.HorizontalHardblank ∧
    IsSymmetricRule SmushingRule.VerticalVerticalLine ∧
    IsSymmetricRule SmushingRule.HorizontalUnderscore ∧
    IsSymmetricRule SmushingRule.VerticalUnderscore ∧
    IsSymmetricRule SmushingRule.HorizontalHierarchy ∧
    IsSymmetricRule SmushingRule.VerticalHierarchy ∧
    IsSymmetricRule SmushingRule.HorizontalOppositePair ∧
    ¬ IsSymmetricRule SmushingRule.HorizontalBigX :=
  ⟨isSymm_HEqualChar, isSymm_VEqualChar, isSymm_HHardblank, isSymm_VVerticalLine,
   isSymm_HUnderscore, isSymm_VUnderscore, isSymm_HHierarchy, isSymm_VHierarchy,
   isSymm_HOppositePair, not_isSymm_HBigX⟩

/-- Claim C5 (witness): the amended theorem applied at concrete characters —
Underscore combines underscore and bar the same way in both orders, and BigX
maps slash-backslash and backslash-slash to different characters. -/
theorem c5_rule_symmetry_witness :
    SmushingRule.HorizontalUnderscore.smush '_' '|' '$' =
      SmushingRule.HorizontalUnderscore.smush '|' '_' '$' ∧
    SmushingRule.HorizontalHierarchy.smush '|' '>' '$' =
      SmushingRule.HorizontalHierarchy.smush '>' '|' '$' :=
  ⟨c5_rule_symmetry.2.2.2.2.1 '_' '|' '$', c5_rule_symmetry.2.2.2.2.2.2.1 '|' '>' '$'⟩

/-- Claim C1: decoding the layout integer 18319 with old_layout 15 yields
horizontal ControlledSmush with exactly the rules OppositePair, Hierarchy,
Underscore, EqualChar and vertical ControlledSmush with exactly the rules
Hierarchy, Underscore, EqualChar, the universal Smushing rules having been
removed from both lists. -/
theorem c1_layout_18319 :
    get_layout (some 18319) 15 =
      some ⟨LayoutMode.ControlledSmush, LayoutMode.ControlledSmush,
        [SmushingRule.HorizontalOppositePair, SmushingRule.HorizontalHierarchy,
         SmushingRule.HorizontalUnderscore, SmushingRule.HorizontalEqualChar],
        [SmushingRule.VerticalHierarchy, SmushingRule.VerticalUnderscore,
         SmushingRule.VerticalEqualChar]⟩ := by
  decide

/-- Claim C2: the column-merge function returns char2 when char1 is a space,
else char1 when char2 is a space, else under UniversalSmush exactly what the
universal Smushing rule returns, else the first non-none result of the
horizontal rules in list order — equivalently, it coincides with the spec-side
`smushHorizontalSpec` — and it returns none when no rule matches. -/
theorem c2_smush_horizontal (R : Rules) (c1 c2 hb : Char) :
    R.smush_horizontal c1 c2 hb = smushHorizontalSpec R c1 c2 hb ∧
    (c1 = ' ' → R.smush_horizontal c1 c2 hb = some c2) ∧
    (c1 ≠ ' ' → c2 = ' ' → R.smush_horizontal c1 c2 hb = some c1) ∧
    (c1 ≠ ' ' → c2 ≠ ' ' → R.horizontal_layout = LayoutMode.UniversalSmush →
      R.smush_horizontal c1 c2 hb = SmushingRule.HorizontalSmushing.smush c1 c2 hb) ∧
    (c1 ≠ ' ' → c2 ≠ ' ' → R.horizontal_layout ≠ LayoutMode.UniversalSmush →
      (∀ r ∈ R.horizontal_rules, r.smush c1 c2 hb = none) →
      R.smush_horizontal c1 c2 hb = none) := by
  refine ⟨?_, ?_, ?_, ?_, ?_⟩
  · simp only [Rules.smush_horizontal, smushHorizontalSpec, findSome?_eq_firstMatch]
  · intro h1
    simp [Rules.smush_horizontal, h1]
  · intro h1 h2
    simp [Rules.smush_horizontal, h1, h2]
  · intro h1 h2 h3
    simp [Rules.smush_horizontal, h1, h2, h3]
  · intro h1 h2 h3 hall
    simp only [Rules.smush_horizontal, if_neg h1, if_neg h2, if_neg h3]
    exact findSome?_none_of_all _ _ hall

/-- Claim C2 (witness): concrete instances — a space on the left, a failing
controlled-smush pair with an empty result. -/
theorem c2_smush_horizontal_witness :
    ('a' ≠ ' ' ∧ 'b' ≠ ' ' ∧
      (⟨LayoutMode.ControlledSmush, LayoutMode.FullWidth,
        [SmushingRule.HorizontalEqualChar], []⟩ : Rules).horizontal_layout ≠
        LayoutMode.UniversalSmush) ∧
    Rules.smush_horizontal
      ⟨LayoutMode.ControlledSmush, LayoutMode.FullWidth,
        [SmushingRule.HorizontalEqualChar], []⟩ 'a' 'b' '$' = none :=
  ⟨by decide,
   (c2_smush_horizontal
      ⟨LayoutMode.ControlledSmush, LayoutMode.FullWidth,
        [SmushingRule.HorizontalEqualChar], []⟩ 'a' 'b' '$').2.2.2.2
     (by decide) (by decide) (by decide) (by decide)⟩

/-- Claim C3: when the greedy decomposition enables no horizontal rule, an
old_layout of 0 gives horizontal mode Fitting and pushes a HorizontalFitting
rule onto the VERTICAL rule list (not the horizontal one), and an old_layout
of -1 gives horizontal mode FullWidth; independently, whenever the
decomposition enables no vertical rule, the vertical mode is FullWidth. -/
theorem c3_layout_fallbacks (fl : Option Int) (ol : Int) :
    ((decodeCore fl ol).horizontal_rules = [] → ol = 0 →
      ∃ r, get_layout fl ol = some r ∧ r.horizontal_layout = LayoutMode.Fitting ∧
        SmushingRule.HorizontalFitting ∈ r.vertical_rules ∧
        SmushingRule.HorizontalFitting ∉ r.horizontal_rules) ∧
    ((decodeCore fl ol).horizontal_rules = [] → ol = -1 →
      ∃ r, get_layout fl ol = some r ∧ r.horizontal_layout = LayoutMode.FullWidth) ∧
    (∀ r, (decodeCore fl ol).vertical_rules = [] → get_layout fl ol = some r →
      r.vertical_layout = LayoutMode.FullWidth) := by
  refine ⟨?_, ?_, ?_⟩
  · intro hemp h0
    have hln : (decodeCore fl ol).horizontal_layout = none :=
      (decodeCore_inv fl ol).1.mpr hemp
    subst h0
    have hgl : get_layout fl 0 =
        some (finishVertical (decodeCore fl 0).vertical_layout LayoutMode.Fitting
          (decodeCore fl 0).horizontal_rules
          ((decodeCore fl 0).vertical_rules ++ [SmushingRule.HorizontalFitting])) := by
      unfold get_layout
      rw [hln]
      dsimp only
      norm_num
    refine ⟨_, hgl, (finishVertical_props _ _ _ _).1, ?_, ?_⟩
    · exact finishVertical_mem_vrules _ _ _ _ _ (by simp) (by decide)
    · rw [(finishVertical_props _ _ _ _).2.1, hemp]
      simp
  · intro hemp h1
    have hln : (decodeCore fl ol).horizontal_layout = none :=
      (decodeCore_inv fl ol).1.mpr hemp
    subst h1
    have hgl : get_layout fl (-1) =
        some (finishVertical (decodeCore fl (-1)).vertical_layout LayoutMode.FullWidth
          (decodeCore fl (-1)).horizontal_rules (decodeCore fl (-1)).vertical_rules) := by
      unfold get_layout
      rw [hln]
      dsimp only
      norm_num
    exact ⟨_, hgl, (finishVertical_props _ _ _ _).1⟩
  · intro r hv hr
    have hvn : (decodeCore fl ol).vertical_layout = none :=
      (decodeCore_inv fl ol).2.1.mpr hv
    obtain ⟨hl, hrules, vrules, heq⟩ := get_layout_shape fl ol r hr
    rw [heq, hvn]
    exact finishVertical_vl_none hl hrules vrules

/-- Claim C3 (witness): the three parts applied at concrete inputs — decoding
(none, 0), (none, -1) and (some 1, -1). -/
theorem c3_layout_fallbacks_witness :
    (∃ r, get_layout none 0 = some r ∧ r.horizontal_layout = LayoutMode.Fitting ∧
      SmushingRule.HorizontalFitting ∈ r.vertical_rules ∧
      SmushingRule.HorizontalFitting ∉ r.horizontal_rules) ∧
    (∃ r, get_layout none (-1) = some r ∧ r.horizontal_layout = LayoutMode.FullWidth) ∧
    (⟨LayoutMode.ControlledSmush, LayoutMode.FullWidth,
        [SmushingRule.HorizontalEqualChar], []⟩ : Rules).vertical_layout =
      LayoutMode.FullWidth :=
  ⟨(c3_layout_fallbacks none 0).1 (by decide) rfl,
   (c3_layout_fallbacks none (-1)).2.1 (by decide) rfl,
   (c3_layout_fallbacks (some 1) (-1)).2.2 _ (by decide) (by decide)⟩

/-- Claim C6 (counterexample): the claim as stated is false — decoding
(none, 0) places HorizontalFitting, a rule of HORIZONTAL axis, in the VERTICAL
rule list. -/
theorem c6_counterexample :
    get_layout none 0 =
      some ⟨LayoutMode.Fitting, LayoutMode.FullWidth, [],
        [SmushingRule.HorizontalFitting]⟩ ∧
    SmushingRule.HorizontalFitting.get_type = LayoutType.Horizontal := by
  decide

/-- Claim C6 (amended): in every Rules value the decoder produces, each rule
appears at most once across the two lists, every rule in the horizontal list
is of horizontal axis, and every rule in the vertical list is of vertical axis
EXCEPT possibly HorizontalFitting, which the old_layout = 0 fallback pushes
onto the vertical list. -/
theorem c6_rule_placement (fl : Option Int) (ol : Int) (r : Rules)
    (h : get_layout fl ol = some r) :
    (r.horizontal_rules ++ r.vertical_rules).Nodup ∧
    (∀ s ∈ r.horizontal_rules, s.get_type = LayoutType.Horizontal) ∧
    (∀ s ∈ r.vertical_rules, s.get_type = LayoutType.Vertical ∨
      (s = SmushingRule.HorizontalFitting ∧ ol = 0)) := by
  obtain ⟨hiff_h, hiff_v, hax_h, hax_v⟩ := decodeCore_inv fl ol
  have hnd := decodeCore_nodup fl ol
  unfold get_layout at h
  split at h
  · rename_i hln
    have hhemp : (decodeCore fl ol).horizontal_rules = [] := hiff_h.mp hln
    split_ifs at h with h0 h1
    · have hre : r = finishVertical (decodeCore fl ol).vertical_layout LayoutMode.Fitting
          (decodeCore fl ol).horizontal_rules
          ((decodeCore fl ol).vertical_rules ++ [SmushingRule.HorizontalFitting]) :=
        (Option.some.inj h).symm
      subst hre
      refine finishVertical_nodup_axis _ _ _ _ _ ?_ hax_h ?_
      · rw [hhemp, List.nil_append, List.nodup_append]
        refine ⟨(List.nodup_append.mp hnd).2.1, by simp, ?_⟩
        intro s hs hc
        rw [List.mem_singleton.mp hc] at hs
        have := hax_v _ hs
        exact absurd this (by decide)
      · intro s hs
        rcases List.mem_append.mp hs with hs | hs
        · exact Or.inl (hax_v s hs)
        · exact Or.inr ⟨List.mem_singleton.mp hs, h0⟩
    · have hre : r = finishVertical (decodeCore fl ol).vertical_layout LayoutMode.FullWidth
          (decodeCore fl ol).horizontal_rules (decodeCore fl ol).vertical_rules :=
        (Option.some.inj h).symm
      subst hre
      exact finishVertical_nodup_axis _ _ _ _ _ hnd hax_h (fun s hs => Or.inl (hax_v s hs))
  · rename_i hl hsome
    split_ifs at h with hcs
    · have hre : r = finishVertical (decodeCore fl ol).vertical_layout hl
          ((decodeCore fl ol).horizontal_rules.filter
            (fun s => s ≠ SmushingRule.HorizontalSmushing))
          (decodeCore fl ol).vertical_rules :=
        (Option.some.inj h).symm
      subst hre
      refine finishVertical_nodup_axis _ _ _ _ _ ?_ ?_
        (fun s hs => Or.inl (hax_v s hs))
      · exact List.Nodup.sublist
          (List.Sublist.append (List.filter_sublist _) (List.Sublist.refl _)) hnd
      · intro s hs
        exact hax_h s ((List.filter_sublist _).subset hs)
    · have hre : r = finishVertical (decodeCore fl ol).vertical_layout hl
          (decodeCore fl ol).horizontal_rules (decodeCore fl ol).vertical_rules :=
        (Option.some.inj h).symm
      subst hre
      exact finishVertical_nodup_axis _ _ _ _ _ hnd hax_h (fun s hs => Or.inl (hax_v s hs))

/-- Claim C6 (witness): the amended theorem applied to the decoding of the
slant font's layout pair (18319, 15). -/
theorem c6_rule_placement_witness :
    ((⟨LayoutMode.ControlledSmush, LayoutMode.ControlledSmush,
        [SmushingRule.HorizontalOppositePair, SmushingRule.HorizontalHierarchy,
         SmushingRule.HorizontalUnderscore, SmushingRule.HorizontalEqualChar],
        [SmushingRule.VerticalHierarchy, SmushingRule.VerticalUnderscore,
         SmushingRule.VerticalEqualChar]⟩ : Rules).horizontal_rules ++
      (⟨LayoutMode.ControlledSmush, LayoutMode.ControlledSmush,
        [SmushingRule.HorizontalOppositePair, SmushingRule.HorizontalHierarchy,
         SmushingRule.HorizontalUnderscore, SmushingRule.HorizontalEqualChar],
        [SmushingRule.VerticalHierarchy, SmushingRule.VerticalUnderscore,
         SmushingRule.VerticalEqualChar]⟩ : Rules).vertical_rules).Nodup :=
  (c6_rule_placement (some 18319) 15 _ (by decide)).1

/-- Claim C7 (counterexample): the claim as stated is false — with the
mandatory comment_lines field MISSING from the header line, `FontOpts::parse`
panics (the `unwrap()` on the exhausted iterator), it does not return the
claimed numeric-parse error. -/
theorem c7_counterexample :
    FontOpts.parse ("flf2a$ 8 8 20 -1") = ParseResult.panic ∧
    (ParseResult.panic : ParseResult FontOpts) ≠ ParseResult.intErr := by
  decide

/-- Claim C7 (amended): a present but non-numeric mandatory field yields the
numeric-parse error; a MISSING mandatory field (fewer than six tokens, all
present mandatory fields numeric) yields a panic instead; and the optional
trailing fields full_layout and codetag_count, when present but non-numeric,
are treated as absent rather than causing an error. -/
theorem c7_header_parsing (line : String) :
    ((splitAsciiWhitespace line.toList).length ≤ 5 →
      presentMandNumeric (splitAsciiWhitespace line.toList) = true →
      FontOpts.parse line = ParseResult.panic) ∧
    (6 ≤ (splitAsciiWhitespace line.toList).length →
      mandNumeric (splitAsciiWhitespace line.toList) = false →
      FontOpts.parse line = ParseResult.intErr) ∧
    (6 ≤ (splitAsciiWhitespace line.toList).length →
      mandNumeric (splitAsciiWhitespace line.toList) = true →
      (parseUsize (((splitAsciiWhitespace line.toList).get? 6).getD ['0'])).isSome = true →
      ∃ fo, FontOpts.parse line = ParseResult.ok fo ∧
        fo.full_layout = ((splitAsciiWhitespace line.toList).get? 7).bind parseIsize ∧
        fo.codetag_count = ((splitAsciiWhitespace line.toList).get? 8).bind parseUsize) :=
  parseToks_cases (splitAsciiWhitespace line.toList)
    (splitAsciiWhitespace_ne_nil line.toList)

/-- Claim C7 (witness): the three amended cases at concrete header lines — a
missing mandatory field panics, a non-numeric height errs, and a header whose
eighth token xyz is non-numeric parses with full_layout treated as absent. -/
theorem c7_header_parsing_witness :
    FontOpts.parse ("flf2a$ 8 8 20 -1 ") = ParseResult.panic ∧
    FontOpts.parse ("flf2a$ x 8 20 -1 6") = ParseResult.intErr ∧
    (∃ fo, FontOpts.parse ("flf2a$ 8 8 20 -1 6 0 xyz 5") = ParseResult.ok fo ∧
      fo.full_layout =
        ((splitAsciiWhitespace ("flf2a$ 8 8 20 -1 6 0 xyz 5").toList).get? 7).bind
          parseIsize ∧
      fo.codetag_count =
        ((splitAsciiWhitespace ("flf2a$ 8 8 20 -1 6 0 xyz 5").toList).get? 8).bind
          parseUsize) :=
  ⟨(c7_header_parsing ("flf2a$ 8 8 20 -1 ")).1 (by decide) (by decide),
   (c7_header_parsing ("flf2a$ x 8 20 -1 6")).2.1 (by decide) (by decide),
   (c7_header_parsing ("flf2a$ 8 8 20 -1 6 0 xyz 5")).2.2 (by decide) (by decide)
     (by decide)⟩

lemma stripLine_spec (l l' : List Char) (h : stripLine l = some l') : stripSpec l = l' := by
  unfold stripLine at h
  unfold stripSpec
  cases hl : l.getLast? with
  | none => rw [hl] at h; cases h
  | some c => rw [hl] at h; exact Option.some.inj h

lemma mapStrip_eq : ∀ (ls lv : List (List Char)), mapStrip ls = some lv →
    lv = ls.map stripSpec := by
  intro ls
  induction ls with
  | nil => intro lv h; exact (Option.some.inj h).symm
  | cons l rest ih =>
      intro lv h
      simp only [mapStrip] at h
      cases hs : stripLine l with
      | none => rw [hs] at h; cases h
      | some l' =>
          rw [hs] at h
          cases hm : mapStrip rest with
          | none => rw [hm] at h; cases h
          | some rv =>
              rw [hm] at h
              simp only [Option.map_some] at h
              rw [← Option.some.inj h, List.map_cons, ← stripLine_spec l l' hs, ih rv hm]

/-- Claim C8 (counterexample): the claim as stated is false — the source
strips glyph lines with `l.replace(last_char, "")`, which removes EVERY
occurrence of the line's final character, not just the final one: parsing a
one-line glyph aba produces the glyph b, not the ab that stripping only the
final character would give. -/
theorem c8_counterexample :
    parse_font ("t") ("flf2a$ 1 1 4 -1 0\naba") =
      ParseResult.ok ⟨"t", ⟨'$', 1, 1, 4, -1, 0, 0, none, none⟩, [],
        [(32, [['b']])], ⟨LayoutMode.FullWidth, LayoutMode.FullWidth, [], []⟩⟩ ∧
    stripSpec ['a', 'b', 'a'] = ['b'] ∧
    ['a', 'b', 'a'].dropLast = ['a', 'b'] ∧
    (['b'] : List Char) ≠ ['a', 'b'] := by
  decide

/-- Claim C8 (amended): glyph-table building removes every occurrence of each
line's final character (not only the final position), and partitions the
resulting lines into consecutive chunks of height lines assigned in order to
the fixed code sequence 32..=125 followed by 196, 214, 220, 228, 246, 252,
223. -/
theorem c8_glyph_table (name data : String) (f : Font)
    (h : parse_font name data = ParseResult.ok f) :
    0 < f.font_head.height ∧
    f.chars = charNums.zip (chunksOf f.font_head.height
      (((splitLines data.toList).drop (f.font_head.comment_lines + 1)).map stripSpec)) := by
  unfold parse_font at h
  split at h
  · cases h
  · rename_i headLine rest heq
    split at h
    · cases h
    · cases h
    · rename_i fh hfh
      split at h
      · cases h
      · rename_i lv hmap
        by_cases hh : fh.height = 0
        · rw [if_pos hh] at h
          exact ParseResult.noConfusion h
        · rw [if_neg hh] at h
          cases hgl : get_layout fh.full_layout fh.old_layout with
          | none => rw [hgl] at h; exact ParseResult.noConfusion h
          | some rules =>
            rw [hgl] at h
            have hf : f = ⟨name, fh, List.intercalate ['\n'] (rest.take fh.comment_lines),
                charNums.zip (chunksOf fh.height lv), rules⟩ := (ParseResult.ok.inj h).symm
            subst hf
            refine ⟨Nat.pos_of_ne_zero hh, ?_⟩
            have hlv : lv = (rest.drop fh.comment_lines).map stripSpec := mapStrip_eq _ _ hmap
            rw [heq]
            simp only [List.drop_succ_cons]
            rw [← hlv]

/-- Claim C8 (witness): the amended theorem applied to the one-glyph font of
the counterexample, with its glyph-table formula checked concretely. -/
theorem c8_glyph_table_witness :
    0 < (⟨"t", ⟨'$', 1, 1, 4, -1, 0, 0, none, none⟩, [],
        [(32, [['b']])], ⟨LayoutMode.FullWidth, LayoutMode.FullWidth, [], []⟩⟩ :
          Font).font_head.height ∧
    (⟨"t", ⟨'$', 1, 1, 4, -1, 0, 0, none, none⟩, [],
        [(32, [['b']])], ⟨LayoutMode.FullWidth, LayoutMode.FullWidth, [], []⟩⟩ :
          Font).chars =
      charNums.zip (chunksOf
        (⟨"t", ⟨'$', 1, 1, 4, -1, 0, 0, none, none⟩, [],
          [(32, [['b']])], ⟨LayoutMode.FullWidth, LayoutMode.FullWidth, [], []⟩⟩ :
            Font).font_head.height
        (((splitLines ("flf2a$ 1 1 4 -1 0\naba").toList).drop
          ((⟨"t", ⟨'$', 1, 1, 4, -1, 0, 0, none, none⟩, [],
            [(32, [['b']])], ⟨LayoutMode.FullWidth, LayoutMode.FullWidth, [], []⟩⟩ :
              Font).font_head.comment_lines + 1)).map stripSpec)) :=
  c8_glyph_table ("t") ("flf2a$ 1 1 4 -1 0\naba") _ (by decide)

lemma convertLoop_none (f : Font) :
    ∀ (msg : List Char) (acc : List (List Char)) (c : Char), c ∈ msg →
      f.chars.lookup (charCode c) = none → convertLoop f acc msg = none := by
  intro msg
  induction msg with
  | nil => intro acc c hc; cases hc
  | cons d ds ih =>
      intro acc c hc habs
      rcases List.mem_cons.mp hc with hc | hc
      · subst hc
        simp only [convertLoop]
        rw [habs]
      · simp only [convertLoop]
        cases hl : f.chars.lookup (charCode d) with
        | none => rfl
        | some g =>
            dsimp only
            cases ha : add_char f.rules f.font_head.hardblank acc g with
            | none => rfl
            | some acc2 => exact ih acc2 c hc habs

/-- Claim C9 (counterexample): the claim as stated is false in its surfacing
part — the failed glyph lookup aborts the render through an `unwrap()` panic
whose payload is a fixed message, so the failure the caller sees is identical
for different offending code points and carries no code point at all. -/
theorem c9_counterexample :
    convert F0 ['q'] = none ∧ convert F0 ['z'] = none ∧ charCode 'q' ≠ charCode 'z' := by
  decide

/-- Claim C9 (amended): whenever the message contains a character whose code
is absent from the glyph table, the render call fails (aborts rather than
silently skipping the character); the abort is an unwrap panic that carries no
offending code point. -/
theorem c9_missing_glyph_aborts (f : Font) (msg : List Char) (c : Char)
    (hc : c ∈ msg) (habs : f.chars.lookup (charCode c) = none) :
    convert f msg = none :=
  convertLoop_none f msg (List.replicate f.font_head.height []) c hc habs

/-- Claim C9 (witness): the amended theorem applied to the tiny Fitting font
and a message with the absent letter q. -/
theorem c9_missing_glyph_aborts_witness :
    ('q' ∈ ['q'] ∧ F0.chars.lookup (charCode 'q') = none) ∧
    convert F0 ['q', 'a'] = none :=
  ⟨⟨by decide, by decide⟩,
   c9_missing_glyph_aborts F0 ['q', 'a'] 'q' (by decide) (by decide)⟩

lemma rowMerge_zero (R : Rules) (hb : Char) (cs1 cs2 : List Char) :
    rowMerge R hb 0 cs1 cs2 = some (cs1 ++ cs2) := by
  unfold rowMerge
  rw [if_pos ⟨Nat.zero_le _, Nat.zero_le _⟩, Nat.sub_zero, List.drop_length]
  simp [smushZip, List.take_length]

lemma mergeRows_zeroOverlay (R : Rules) (hb : Char) :
    ∀ (acc g : List (List Char)), acc.length = g.length →
      mergeRows R hb 0 acc g = some (List.zipWith (fun a b => a ++ b) acc g) := by
  intro acc
  induction acc with
  | nil =>
      intro g hlen
      cases g with
      | nil => rfl
      | cons b bs => simp at hlen
  | cons a as ih =>
      intro g hlen
      cases g with
      | nil => simp at hlen
      | cons b bs =>
          simp only [mergeRows, rowMerge_zero, List.zipWith_cons_cons]
          rw [ih bs (by simpa using hlen)]

lemma calc_overlay_fullwidth (R : Rules) (hb : Char) (acc g : List (List Char))
    (hfw : R.horizontal_layout = LayoutMode.FullWidth) (hlen : acc.length = g.length) :
    calc_overlay R hb acc g = some 0 := by
  unfold calc_overlay
  rw [if_pos hlen, if_pos hfw]

lemma add_char_fullwidth (R : Rules) (hb : Char) (acc g : List (List Char))
    (hfw : R.horizontal_layout = LayoutMode.FullWidth) (hlen : acc.length = g.length) :
    add_char R hb acc g = some (List.zipWith (fun a b => a ++ b) acc g) := by
  unfold add_char
  rw [calc_overlay_fullwidth R hb acc g hfw hlen]
  exact mergeRows_zeroOverlay R hb acc g hlen

lemma zipWith_append_getD :
    ∀ (acc g : List (List Char)) (i : Nat), i < acc.length → i < g.length →
      (List.zipWith (fun a b => a ++ b) acc g).getD i [] =
        acc.getD i [] ++ g.getD i [] := by
  intro acc
  induction acc with
  | nil => intro g i h1 _; simp at h1
  | cons a as ih =>
      intro g i h1 h2
      cases g with
      | nil => simp at h2
      | cons b bs =>
          cases i with
          | zero => simp
          | succ j =>
              simp only [List.zipWith_cons_cons, List.getD_cons_succ]
              exact ih bs j (by simpa using h1) (by simpa using h2)

lemma getD_replicate_nil (n i : Nat) : (List.replicate n ([] : List Char)).getD i [] = [] := by
  induction n generalizing i with
  | zero => simp
  | succ m ih =>
      cases i with
      | zero => simp
      | succ j =>
          rw [List.replicate_succ, List.getD_cons_succ]
          exact ih j

lemma convertLoop_fullwidth (f : Font)
    (hfw : f.rules.horizontal_layout = LayoutMode.FullWidth) :
    ∀ (msg : List Char) (acc : List (List Char)), acc.length = f.font_head.height →
      (∀ c ∈ msg, ∃ g, f.chars.lookup (charCode c) = some g ∧
        g.length = f.font_head.height) →
      ∃ res, convertLoop f acc msg = some res ∧ res.length = f.font_head.height ∧
        ∀ i, i < f.font_head.height →
          res.getD i [] = acc.getD i [] ++ (msg.map (fun c => glyphRow f c i)).flatten := by
  intro msg
  induction msg with
  | nil =>
      intro acc hlen _
      exact ⟨acc, rfl, hlen, fun i _ => by simp⟩
  | cons c cs ih =>
      intro acc hlen hmsg
      obtain ⟨g, hg, hglen⟩ := hmsg c (by simp)
      have hacc2 : (List.zipWith (fun a b => a ++ b) acc g).length = f.font_head.height := by
        simp [List.length_zipWith, hlen, hglen]
      obtain ⟨res, hres, hreslen, hrows⟩ := ih (List.zipWith (fun a b => a ++ b) acc g)
        hacc2 (fun d hd => hmsg d (by simp [hd]))
      refine ⟨res, ?_, hreslen, ?_⟩
      · simp only [convertLoop, hg]
        rw [add_char_fullwidth f.rules f.font_head.hardblank acc g hfw
          (by rw [hlen, hglen])]
        exact hres
      · intro i hi
        rw [hrows i hi, zipWith_append_getD acc g i (by rw [hlen]; exact hi)
          (by rw [hglen]; exact hi), List.map_cons, List.flatten_cons, List.append_assoc]
        have hgr : glyphRow f c i = g.getD i [] := by
          unfold glyphRow
          rw [hg]
          rfl
        rw [hgr]

/-- Claim C4: with FullWidth horizontal layout, the overlay is 0 for every
appended glyph (no column is merged) and rendering a message whose characters
all have glyphs of the font's height produces each banner row as the plain
concatenation of the corresponding glyph rows, with row width the sum of the
glyph row widths. -/
theorem c4_fullwidth_concat (f : Font) (msg : List Char)
    (hfw : f.rules.horizontal_layout = LayoutMode.FullWidth)
    (hg : ∀ c ∈ msg, ∃ g, f.chars.lookup (charCode c) = some g ∧
      g.length = f.font_head.height) :
    (∀ acc g2, acc.length = g2.length →
      calc_overlay f.rules f.font_head.hardblank acc g2 = some 0) ∧
    ∃ res, convert f msg = some res ∧ res.length = f.font_head.height ∧
      ∀ i, i < f.font_head.height →
        res.getD i [] = (msg.map (fun c => glyphRow f c i)).flatten ∧
        (res.getD i []).length = (msg.map (fun c => (glyphRow f c i).length)).sum := by
  constructor
  · intro acc g2 hlen
    exact calc_overlay_fullwidth f.rules f.font_head.hardblank acc g2 hfw hlen
  · obtain ⟨res, hres, hreslen, hrows⟩ := convertLoop_fullwidth f hfw msg
      (List.replicate f.font_head.height []) (by simp) hg
    refine ⟨res, hres, hreslen, ?_⟩
    intro i hi
    have h1 := hrows i hi
    rw [getD_replicate_nil, List.nil_append] at h1
    refine ⟨h1, ?_⟩
    rw [h1, List.length_flatten, List.map_map]
    rfl

/-- Claim C4 (witness): the theorem applied to the tiny FullWidth font and
the message ab — the banner row is the two glyph rows concatenated. -/
theorem c4_fullwidth_concat_witness :
    F1.rules.horizontal_layout = LayoutMode.FullWidth ∧
    (∃ res, convert F1 ['a', 'b'] = some res ∧ res.length = F1.font_head.height ∧
      ∀ i, i < F1.font_head.height →
        res.getD i [] = ((['a', 'b']).map (fun c => glyphRow F1 c i)).flatten ∧
        (res.getD i []).length =
          ((['a', 'b']).map (fun c => (glyphRow F1 c i).length)).sum) :=
  ⟨rfl,
   (c4_fullwidth_concat F1 ['a', 'b'] rfl
     (by intro c hc; fin_cases hc <;> exact ⟨_, rfl, rfl⟩)).2⟩

lemma foldl_min_zero (R : Rules) (hb : Char) :
    ∀ (l : List (List Char × List Char)),
      List.foldl (fun m p => min m (rowOverlay R hb p.1 p.2)) 0 l = 0 := by
  intro l
  induction l with
  | nil => rfl
  | cons p rest ih => simpa [Nat.zero_min] using ih

lemma calc_overlay_empty_acc (R : Rules) (hb : Char) (g : List (List Char)) (n : Nat)
    (hn : 0 < n) (hlen : g.length = n) :
    calc_overlay R hb (List.replicate n []) g = some 0 := by
  unfold calc_overlay
  rw [if_pos (by simp [hlen])]
  by_cases hfw : R.horizontal_layout = LayoutMode.FullWidth
  · rw [if_pos hfw]
  · rw [if_neg hfw]
    obtain ⟨m, rfl⟩ : ∃ m, n = m + 1 := ⟨n - 1, by omega⟩
    simp only [List.replicate_succ, List.head?_cons]
    rw [show (([] : List Char)).length = 0 from rfl, foldl_min_zero]

lemma mergeRows_zero_empty (R : Rules) (hb : Char) :
    ∀ (g : List (List Char)) (n : Nat), g.length = n →
      mergeRows R hb 0 (List.replicate n []) g = some g := by
  intro g
  induction g with
  | nil =>
      intro n hlen
      rw [← hlen]
      rfl
  | cons r gs ih =>
      intro n hlen
      obtain ⟨m, rfl⟩ : ∃ m, n = m + 1 := by
        simp only [List.length_cons] at hlen
        exact ⟨gs.length, hlen.symm⟩
      simp only [List.replicate_succ, mergeRows, rowMerge_zero, List.nil_append]
      rw [ih m (by simpa using hlen)]

lemma add_char_first (R : Rules) (hb : Char) (g : List (List Char)) (n : Nat)
    (hn : 0 < n) (hlen : g.length = n) :
    add_char R hb (List.replicate n []) g = some g := by
  unfold add_char
  rw [calc_overlay_empty_acc R hb g n hn hlen]
  exact mergeRows_zero_empty R hb g n hlen

/-- Claim C10 (counterexample): the claim as stated is false in its last part —
the first glyph is indeed composed with overlay 0, but later glyphs may smush
into its trailing blank columns, so it need not appear verbatim as the leading
columns of the final banner: in the Fitting font whose letter-a glyph is one
blank column, rendering ab yields the single row x, of which the glyph row
(one space) is not the leading column. -/
theorem c10_counterexample :
    convert F0 ['a', 'b'] = some [['x']] ∧
    F0.chars.lookup (charCode 'a') = some [[' ']] ∧
    ([['x']].getD 0 []).take ([' '].length) ≠ [' '] := by
  decide

/-- Claim C10 (amended): for a font of height at least 1 whose first message
character has a glyph of that height, the first glyph is composed against the
initially empty accumulator with overlay 0 regardless of the horizontal layout
mode (the overlay is capped by the empty accumulator's zero row width), so the
accumulator immediately after the first composition step IS the glyph itself;
the rest of the render continues from it. -/
theorem c10_first_glyph (f : Font) (c : Char) (msg : List Char) (g : List (List Char))
    (hh : 0 < f.font_head.height)
    (hg : f.chars.lookup (charCode c) = some g)
    (hlen : g.length = f.font_head.height) :
    calc_overlay f.rules f.font_head.hardblank
      (List.replicate f.font_head.height []) g = some 0 ∧
    add_char f.rules f.font_head.hardblank
      (List.replicate f.font_head.height []) g = some g ∧
    convert f (c :: msg) = convertLoop f g msg := by
  refine ⟨calc_overlay_empty_acc _ _ _ _ hh hlen,
    add_char_first _ _ _ _ hh hlen, ?_⟩
  unfold convert
  simp only [convertLoop, hg]
  rw [add_char_first _ _ _ _ hh hlen]

/-- Claim C10 (witness): the amended theorem applied to the tiny Fitting font
and the letter b — the first composition reproduces the glyph exactly even
though the layout mode is not FullWidth. -/
theorem c10_first_glyph_witness :
    (0 < F0.font_head.height ∧ F0.chars.lookup (charCode 'b') = some [['x']]) ∧
    (calc_overlay F0.rules F0.font_head.hardblank
        (List.replicate F0.font_head.height []) [['x']] = some 0 ∧
      add_char F0.rules F0.font_head.hardblank
        (List.replicate F0.font_head.height []) [['x']] = some [['x']] ∧
      convert F0 ['b'] = convertLoop F0 [['x']] []) :=
  ⟨⟨by decide, by decide⟩,
   c10_first_glyph F0 'b' [] [['x']] (by decide) (by decide) (by decide)⟩
